import Mathlib

/-!
Shallow embedding of the genetic-algorithm program in `GA.c` (repository
`insectopalo/Embryos`, file `src/GA/src/GA.c`).

The program evolves a fixed-size population of fixed-length binary words.
Machine `int` entries are modelled as `ℤ`, C `float` fitness values as `ℚ`
(the fitness of a binary word is a sum of small integers divided by a power
of two, which `float` represents exactly, so `ℚ` is a faithful model on the
inputs that arise).  The C library's `rand()` stream is modelled as an
arbitrary sequence `rs : ℕ → ℕ` of non-negative draws, indexed in the order
the program calls `rand()`.
-/

namespace GA

/-- Constant `GENOME_LENGTH` from the directive `#define GENOME_LENGTH 16` (GA.c line 27). -/
def GENOME_LENGTH : ℕ := 16

/-- Constant `POPULATION_SIZE` from the directive `#define POPULATION_SIZE 40` (GA.c line 28). -/
def POPULATION_SIZE : ℕ := 40

/-- Constant `BOTTLENECK` from the directive `#define BOTTLENECK 20` (GA.c line 29). -/
def BOTTLENECK : ℕ := 20

/-- Constant `MAX_GENERATIONS` from the directive `#define MAX_GENERATIONS 10` (GA.c line 30). -/
def MAX_GENERATIONS : ℕ := 10

/-- Type from `typedef int ORGANISM[GENOME_LENGTH]` (GA.c line 38): a vector of C ints,
modelled as a list of integers (length `GENOME_LENGTH` in every use the
program makes). -/
abbrev ORGANISM := List ℤ

/-- Type from the struct `population` typedef with `ORGANISM member[POPULATION_SIZE]`
(GA.c lines 40-42), modelled as a list of organisms. -/
abbrev POPULATION := List ORGANISM

/-- Function `fitness` (GA.c lines 70-78): sums the first `GENOME_LENGTH` entries of
the organism (the C loop runs `j = 0 .. GENOME_LENGTH-1`) and divides by
`GENOME_LENGTH`.  The C accumulator is a `float`; on the binary organisms
the program produces, the sum is an integer in `[0,16]` and the division is
by `16`, both exact in `float`, so `ℚ` is an exact model. -/
def fitness (Org : ORGANISM) : ℚ :=
  (((Org.take GENOME_LENGTH).sum : ℤ) : ℚ) / (GENOME_LENGTH : ℚ)

/-- An organism whose entries are all bits (0 or 1). -/
def BinaryOrg (o : ORGANISM) : Prop := ∀ x ∈ o, x = 0 ∨ x = 1

/-- A population all of whose members are binary organisms. -/
def BinaryPop (P : POPULATION) : Prop := ∀ o ∈ P, BinaryOrg o

theorem binary_sum_nonneg {l : List ℤ} (h : ∀ x ∈ l, x = 0 ∨ x = 1) :
    0 ≤ l.sum := by
  induction l with
  | nil => simp
  | cons a t ih =>
    have ha := h a (List.mem_cons_self a t)
    have ht := ih (fun x hx => h x (List.mem_cons_of_mem a hx))
    rcases ha with ha | ha <;> simp [ha] <;> omega

theorem binary_sum_le_length {l : List ℤ} (h : ∀ x ∈ l, x = 0 ∨ x = 1) :
    l.sum ≤ (l.length : ℤ) := by
  induction l with
  | nil => simp
  | cons a t ih =>
    have ha := h a (List.mem_cons_self a t)
    have ht := ih (fun x hx => h x (List.mem_cons_of_mem a hx))
    rcases ha with ha | ha <;> simp [ha] <;> push_cast <;> omega

theorem binary_sum_eq_length_iff {l : List ℤ} (h : ∀ x ∈ l, x = 0 ∨ x = 1) :
    l.sum = (l.length : ℤ) ↔ ∀ x ∈ l, x = 1 := by
  induction l with
  | nil => simp
  | cons a t ih =>
    have ha := h a (List.mem_cons_self a t)
    have ht : ∀ x ∈ t, x = 0 ∨ x = 1 := fun x hx => h x (List.mem_cons_of_mem a hx)
    have hle := binary_sum_le_length ht
    constructor
    · intro hs
      rcases ha with ha | ha
      · exfalso
        simp only [List.sum_cons, ha, zero_add, List.length_cons] at hs
        push_cast at hs
        omega
      · intro x hx
        rcases List.mem_cons.1 hx with rfl | hx
        · exact ha
        · refine (ih ht).1 ?_ x hx
          simp only [List.sum_cons, ha, List.length_cons] at hs
          push_cast at hs
          omega
    · intro hall
      have ha1 : a = 1 := hall a (List.mem_cons_self a t)
      have hts : t.sum = (t.length : ℤ) :=
        (ih ht).2 (fun x hx => hall x (List.mem_cons_of_mem a hx))
      simp [ha1, hts]
      push_cast
      ring

theorem binary_sum_eq_zero_iff {l : List ℤ} (h : ∀ x ∈ l, x = 0 ∨ x = 1) :
    l.sum = 0 ↔ ∀ x ∈ l, x = 0 := by
  induction l with
  | nil => simp
  | cons a t ih =>
    have ha := h a (List.mem_cons_self a t)
    have ht : ∀ x ∈ t, x = 0 ∨ x = 1 := fun x hx => h x (List.mem_cons_of_mem a hx)
    have htnn := binary_sum_nonneg ht
    constructor
    · intro hs
      simp only [List.sum_cons] at hs
      have hann : (0:ℤ) ≤ a := by rcases ha with ha | ha <;> simp [ha]
      have ha0 : a = 0 := by omega
      have ht0 : t.sum = 0 := by omega
      intro x hx
      rcases List.mem_cons.1 hx with rfl | hx
      · exact ha0
      · exact (ih ht).1 ht0 x hx
    · intro hall
      have ha0 : a = 0 := hall a (List.mem_cons_self a t)
      have ht0 : t.sum = 0 := (ih ht).2 (fun x hx => hall x (List.mem_cons_of_mem a hx))
      simp [ha0, ht0]

theorem fitness_eq_sum_div {Org : ORGANISM} (hlen : Org.length = GENOME_LENGTH) :
    fitness Org = ((Org.sum : ℤ) : ℚ) / (GENOME_LENGTH : ℚ) := by
  unfold fitness
  rw [List.take_of_length_le (le_of_eq hlen)]

theorem fitness_nonneg {Org : ORGANISM} (hb : BinaryOrg Org) : 0 ≤ fitness Org := by
  unfold fitness
  have h : ∀ x ∈ Org.take GENOME_LENGTH, x = 0 ∨ x = 1 :=
    fun x hx => hb x (List.mem_of_mem_take hx)
  have := binary_sum_nonneg h
  positivity

theorem fitness_le_one {Org : ORGANISM} (hb : BinaryOrg Org) : fitness Org ≤ 1 := by
  unfold fitness
  have h : ∀ x ∈ Org.take GENOME_LENGTH, x = 0 ∨ x = 1 :=
    fun x hx => hb x (List.mem_of_mem_take hx)
  have h1 := binary_sum_le_length h
  have h2 : (Org.take GENOME_LENGTH).length ≤ GENOME_LENGTH := List.length_take_le _ _
  rw [div_le_one (by norm_num [GENOME_LENGTH])]
  calc (((Org.take GENOME_LENGTH).sum : ℤ) : ℚ)
      ≤ (((Org.take GENOME_LENGTH).length : ℤ) : ℚ) := by exact_mod_cast h1
    _ ≤ (GENOME_LENGTH : ℚ) := by exact_mod_cast h2

/-- C1: `fitness` returns (sum of bits) / `GENOME_LENGTH`, lies in `[0,1]` on
binary organisms, equals 1 iff all bits are 1 and 0 iff all bits are 0, and
depends only on the organism's contents (it is a pure function of its
argument). -/
theorem C1_fitness_correct (Org : ORGANISM)
    (hlen : Org.length = GENOME_LENGTH) (hb : BinaryOrg Org) :
    fitness Org = ((Org.sum : ℤ) : ℚ) / (GENOME_LENGTH : ℚ) ∧
    0 ≤ fitness Org ∧ fitness Org ≤ 1 ∧
    (fitness Org = 1 ↔ ∀ x ∈ Org, x = 1) ∧
    (fitness Org = 0 ↔ ∀ x ∈ Org, x = 0) ∧
    (∀ Org2 : ORGANISM, Org2 = Org → fitness Org2 = fitness Org) := by
  have htake : Org.take GENOME_LENGTH = Org := List.take_of_length_le (le_of_eq hlen)
  have hGL : (GENOME_LENGTH : ℚ) ≠ 0 := by norm_num [GENOME_LENGTH]
  refine ⟨fitness_eq_sum_div hlen, fitness_nonneg hb, fitness_le_one hb, ?_, ?_, ?_⟩
  · rw [fitness_eq_sum_div hlen]
    rw [div_eq_one_iff_eq hGL]
    constructor
    · intro h
      have hs : Org.sum = (GENOME_LENGTH : ℤ) := by exact_mod_cast h
      rw [← hlen] at hs
      exact_mod_cast (binary_sum_eq_length_iff hb).1 (by exact_mod_cast hs)
    · intro h
      have hs : Org.sum = (Org.length : ℤ) := (binary_sum_eq_length_iff hb).2 h
      rw [hs, hlen]
      push_cast
      ring
  · rw [fitness_eq_sum_div hlen]
    rw [div_eq_zero_iff]
    constructor
    · intro h
      rcases h with h | h
      · have hs : Org.sum = 0 := by exact_mod_cast h
        exact (binary_sum_eq_zero_iff hb).1 hs
      · exact absurd h hGL
    · intro h
      left
      have hs : Org.sum = 0 := (binary_sum_eq_zero_iff hb).2 h
      exact_mod_cast hs
  · intro Org2 h
    rw [h]

/-- Witness for C1 at the all-ones organism of length 16. -/
theorem C1_fitness_correct_witness :
    fitness (List.replicate 16 (1:ℤ)) = 1 := by
  have h := C1_fitness_correct (List.replicate 16 (1:ℤ))
    (by simp [GENOME_LENGTH]) (by intro x hx; right; exact List.eq_of_mem_replicate hx)
  exact h.2.2.2.1.2 (fun x hx => List.eq_of_mem_replicate hx)

/-- Function `crossover` (GA.c lines 104-116), generalized over the `GENOME_LENGTH`
macro as parameter `n`: offspring entry `j` is `parent1[j]` for
`j < cutting_point` (first C loop) and `parent2[j]` for
`cutting_point ≤ j < n` (second C loop), and symmetrically for the second
offspring.  Out-of-range reads default to 0 (never exercised: the program
only calls it with length-`n` parents). -/
def crossover_gen (n : ℕ) (parent1 parent2 : ORGANISM) (cutting_point : ℕ) :
    ORGANISM × ORGANISM :=
  ((List.range n).map (fun j =>
      if j < cutting_point then parent1.getD j 0 else parent2.getD j 0),
   (List.range n).map (fun j =>
      if j < cutting_point then parent2.getD j 0 else parent1.getD j 0))

/-- Function `crossover` as the program calls it, at the fixed `GENOME_LENGTH`. -/
def crossover (parent1 parent2 : ORGANISM) (cutting_point : ℕ) :
    ORGANISM × ORGANISM :=
  crossover_gen GENOME_LENGTH parent1 parent2 cutting_point

theorem crossover_gen_half {n : ℕ} {p1 p2 : ORGANISM} {c : ℕ}
    (h1 : p1.length = n) (h2 : p2.length = n) (hc : c ≤ n) :
    (List.range n).map (fun j => if j < c then p1.getD j 0 else p2.getD j 0) =
      p1.take c ++ p2.drop c := by
  apply List.ext_getElem
  · simp [h2]
    omega
  · intro i hi1 hi2
    simp only [List.length_map, List.length_range] at hi1
    rw [List.getElem_map, List.getElem_range]
    by_cases hic : i < c
    · rw [if_pos hic]
      rw [List.getElem_append_left (by simp [h1]; omega)]
      rw [List.getElem_take]
      rw [List.getD_eq_getElem?_getD, List.getElem?_eq_getElem (by omega)]
      rfl
    · rw [if_neg hic]
      have hp1t : (p1.take c).length = c := by
        rw [List.length_take]
        omega
      rw [List.getElem_append_right (by omega)]
      rw [List.getElem_drop]
      rw [List.getD_eq_getElem?_getD, List.getElem?_eq_getElem (by omega : i < p2.length)]
      simp only [Option.getD_some]
      have hidx : c + (i - (p1.take c).length) = i := by omega
      simp only [hidx]

/-- C2: for parents of a common length `n` and any cut point `c ≤ n`,
`crossover` returns `(p1[0:c] ++ p2[c:], p2[0:c] ++ p1[c:])`; at `c = 0`
the offspring are the swapped parents; and the concrete scenario
`crossover([1,1,1,1],[0,0,0,0],2) = ([1,1,0,0],[0,0,1,1])` (genome length 4)
holds. -/
theorem C2_crossover_correct (n : ℕ) (p1 p2 : ORGANISM) (c : ℕ)
    (h1 : p1.length = n) (h2 : p2.length = n) (hc : c ≤ n) :
    (crossover_gen n p1 p2 c).1 = p1.take c ++ p2.drop c ∧
    (crossover_gen n p1 p2 c).2 = p2.take c ++ p1.drop c ∧
    (c = 0 → (crossover_gen n p1 p2 c).1 = p2 ∧ (crossover_gen n p1 p2 c).2 = p1) ∧
    crossover_gen 4 [1,1,1,1] [0,0,0,0] 2 = ([1,1,0,0], [0,0,1,1]) ∧
    crossover p1 p2 c = crossover_gen GENOME_LENGTH p1 p2 c := by
  have ha : (crossover_gen n p1 p2 c).1 = p1.take c ++ p2.drop c :=
    crossover_gen_half h1 h2 hc
  have hb : (crossover_gen n p1 p2 c).2 = p2.take c ++ p1.drop c :=
    crossover_gen_half h2 h1 hc
  refine ⟨ha, hb, ?_, by decide, rfl⟩
  intro hc0
  subst hc0
  simp [ha, hb]

/-- Witness for C2 at concrete parents of length 3 and cut point 1. -/
theorem C2_crossover_correct_witness :
    (crossover_gen 3 [1,0,1] [0,1,0] 1).1 = [1,1,0] := by
  have h := C2_crossover_correct 3 [1,0,1] [0,1,0] 1 (by decide) (by decide) (by decide)
  rw [h.1]
  decide

/-- Comparator `comp` (GA.c lines 126-135): compares two organisms by fitness.
Returns 0 when the fitness difference is 0, 1 when it is negative
(i.e. `a` is less fit, so it sorts after `b`), and -1 otherwise. -/
def comp (a b : ORGANISM) : ℤ :=
  if fitness a - fitness b = 0 then 0
  else if fitness a - fitness b < 0 then 1
  else -1

/-- Function `sort_P_by_fitness` (GA.c lines 137-139): `qsort` on the member array
with comparator `comp`.  `qsort` guarantees only that the output is a
permutation of the input ordered consistently with the comparator
(earlier elements compare `≤ 0` against later ones), which is exactly the
contract of `mergeSort` with `le a b := comp a b ≤ 0`. -/
def sort_P_by_fitness (P : POPULATION) : POPULATION :=
  P.mergeSort (fun a b => decide (comp a b ≤ 0))

theorem comp_eq_zero_iff (a b : ORGANISM) :
    comp a b = 0 ↔ fitness a = fitness b := by
  unfold comp
  rcases lt_trichotomy (fitness a) (fitness b) with h | h | h
  · have h0 : fitness a - fitness b ≠ 0 := by
      intro hc
      have := sub_eq_zero.1 hc
      linarith
    rw [if_neg h0, if_pos (by linarith)]
    constructor
    · intro hc
      norm_num at hc
    · intro hc
      linarith
  · rw [if_pos (by rw [h, sub_self])]
    simp [h]
  · have h0 : fitness a - fitness b ≠ 0 := by
      intro hc
      have := sub_eq_zero.1 hc
      linarith
    rw [if_neg h0, if_neg (by linarith)]
    constructor
    · intro hc
      norm_num at hc
    · intro hc
      linarith

theorem comp_eq_neg_one_iff (a b : ORGANISM) :
    comp a b = -1 ↔ fitness b < fitness a := by
  unfold comp
  rcases lt_trichotomy (fitness a) (fitness b) with h | h | h
  · have h0 : fitness a - fitness b ≠ 0 := by
      intro hc
      have := sub_eq_zero.1 hc
      linarith
    rw [if_neg h0, if_pos (by linarith)]
    constructor
    · intro hc
      norm_num at hc
    · intro hc
      linarith
  · rw [if_pos (by rw [h, sub_self])]
    constructor
    · intro hc
      norm_num at hc
    · intro hc
      linarith
  · have h0 : fitness a - fitness b ≠ 0 := by
      intro hc
      have := sub_eq_zero.1 hc
      linarith
    rw [if_neg h0, if_neg (by linarith)]
    simp [h]

theorem comp_eq_one_iff (a b : ORGANISM) :
    comp a b = 1 ↔ fitness a < fitness b := by
  unfold comp
  rcases lt_trichotomy (fitness a) (fitness b) with h | h | h
  · have h0 : fitness a - fitness b ≠ 0 := by
      intro hc
      have := sub_eq_zero.1 hc
      linarith
    rw [if_neg h0, if_pos (by linarith)]
    simp [h]
  · rw [if_pos (by rw [h, sub_self])]
    constructor
    · intro hc
      norm_num at hc
    · intro hc
      linarith
  · have h0 : fitness a - fitness b ≠ 0 := by
      intro hc
      have := sub_eq_zero.1 hc
      linarith
    rw [if_neg h0, if_neg (by linarith)]
    constructor
    · intro hc
      norm_num at hc
    · intro hc
      linarith

theorem comp_le_zero_iff (a b : ORGANISM) :
    comp a b ≤ 0 ↔ fitness b ≤ fitness a := by
  unfold comp
  rcases lt_trichotomy (fitness a) (fitness b) with h | h | h
  · have h0 : fitness a - fitness b ≠ 0 := by
      intro hc
      have := sub_eq_zero.1 hc
      linarith
    rw [if_neg h0, if_pos (by linarith)]
    constructor
    · intro hc
      norm_num at hc
    · intro hc
      linarith
  · rw [if_pos (by rw [h, sub_self])]
    constructor
    · intro _
      linarith
    · intro _
      norm_num
  · have h0 : fitness a - fitness b ≠ 0 := by
      intro hc
      have := sub_eq_zero.1 hc
      linarith
    rw [if_neg h0, if_neg (by linarith)]
    constructor
    · intro _
      linarith
    · intro _
      norm_num

theorem sort_P_perm (P : POPULATION) : (sort_P_by_fitness P).Perm P :=
  List.mergeSort_perm P _

theorem sort_P_pairwise (P : POPULATION) :
    (sort_P_by_fitness P).Pairwise (fun a b => comp a b ≤ 0) := by
  have htrans : ∀ (a b c : ORGANISM), decide (comp a b ≤ 0) = true →
      decide (comp b c ≤ 0) = true → decide (comp a c ≤ 0) = true := by
    intro a b c hab hbc
    simp only [decide_eq_true_eq, comp_le_zero_iff] at *
    linarith
  have htotal : ∀ (a b : ORGANISM),
      (decide (comp a b ≤ 0) || decide (comp b a ≤ 0)) = true := by
    intro a b
    simp only [Bool.or_eq_true, decide_eq_true_eq, comp_le_zero_iff]
    exact le_total (fitness b) (fitness a)
  have h := List.sorted_mergeSort htrans htotal P
  exact h.imp (by simp only [decide_eq_true_eq]; exact fun h => h)

/-- C6: sorting the population yields a rearrangement (permutation) of the
same organisms with fitness non-increasing in the index, and the comparator
`comp` orders higher fitness earlier (result -1), lower fitness later
(result 1), and returns 0 exactly on equal fitness. -/
theorem C6_sort_correct (P : POPULATION) :
    (sort_P_by_fitness P).Perm P ∧
    (∀ i, i + 1 < (sort_P_by_fitness P).length →
      fitness ((sort_P_by_fitness P).getD (i+1) []) ≤
        fitness ((sort_P_by_fitness P).getD i [])) ∧
    (∀ a b : ORGANISM, comp a b = 0 ↔ fitness a = fitness b) ∧
    (∀ a b : ORGANISM, comp a b = -1 ↔ fitness b < fitness a) ∧
    (∀ a b : ORGANISM, comp a b = 1 ↔ fitness a < fitness b) := by
  refine ⟨sort_P_perm P, ?_, comp_eq_zero_iff, comp_eq_neg_one_iff, comp_eq_one_iff⟩
  intro i hi
  have hp := List.pairwise_iff_getElem.1 (sort_P_pairwise P) i (i+1)
    (by omega) hi (by omega)
  rw [comp_le_zero_iff] at hp
  rw [List.getD_eq_getElem?_getD, List.getElem?_eq_getElem hi,
      List.getD_eq_getElem?_getD, List.getElem?_eq_getElem (by omega)]
  exact hp

/-- Witness for C6 at the two-organism population `[[0],[1]]` and index 0. -/
theorem C6_sort_correct_witness :
    fitness ((sort_P_by_fitness [[(0:ℤ)],[1]]).getD 1 []) ≤
      fitness ((sort_P_by_fitness [[(0:ℤ)],[1]]).getD 0 []) :=
  (C6_sort_correct [[(0:ℤ)],[1]]).2.1 0
    (by simp [sort_P_by_fitness])

/-- The body of the C shuffle's swap (`temp = a[j]; a[j] = a[i]; a[i] = temp`,
GA.c lines 151-153): cell `j` receives the old `a[i]` and cell `i` receives
the old `a[j]`. -/
def listSwap (a : List ℕ) (i j : ℕ) : List ℕ :=
  (a.set j (a.getD i 0)).set i (a.getD j 0)

/-- The loop of `shuffle_array` (GA.c lines 149-154), unrolled over the loop
index `i` counting down from `n-1` to `1`; the draw for index `i` is the
`(n-1-i)`-th `rand()` call of the shuffle. -/
def shuffle_from (rs : ℕ → ℕ) (n : ℕ) : ℕ → List ℕ → List ℕ
  | 0, a => a
  | i + 1, a =>
      shuffle_from rs n i (listSwap a (rs (n - 1 - (i + 1)) % (i + 2)) (i + 1))

/-- Function `shuffle_array` (GA.c lines 147-155): modern Fisher-Yates shuffle, with
`rand()` draws taken from the stream `rs` starting at index 0. -/
def shuffle_array (rs : ℕ → ℕ) (a : List ℕ) (n : ℕ) : List ℕ :=
  shuffle_from rs n (n - 1) a

theorem getD_set_ne {α : Type} (d : α) (l : List α) (m k : ℕ) (v : α) (h : m ≠ k) :
    (l.set m v).getD k d = l.getD k d := by
  simp [List.getD_eq_getElem?_getD, List.getElem?_set_ne h]

theorem getD_set_self {α : Type} (d : α) (l : List α) (m : ℕ) (v : α) (h : m < l.length) :
    (l.set m v).getD m d = v := by
  simp [List.getD_eq_getElem?_getD, List.getElem?_set_self h]

theorem count_set_add (l : List ℕ) :
    ∀ (n : ℕ) (b : ℕ), n < l.length → ∀ x,
      (l.set n b).count x + (if l.getD n 0 = x then 1 else 0)
        = l.count x + (if b = x then 1 else 0) := by
  induction l with
  | nil =>
    intro n b hn
    simp at hn
  | cons a t ih =>
    intro n b hn x
    cases n with
    | zero =>
      simp only [List.set_cons_zero, List.getD_cons_zero, List.count_cons]
      by_cases hax : a = x <;> by_cases hbx : b = x <;> simp [hax, hbx]
    | succ m =>
      simp only [List.set_cons_succ, List.getD_cons_succ, List.count_cons]
      have hm : m < t.length := by
        simp only [List.length_cons] at hn
        omega
      have := ih m b hm x
      simp only [List.getD_eq_getElem?_getD] at this ⊢
      by_cases hax : a = x <;> simp [hax] <;> omega

theorem listSwap_perm (a : List ℕ) (i j : ℕ) (hi : i < a.length) (hj : j < a.length) :
    (listSwap a i j).Perm a := by
  rw [List.perm_iff_count]
  intro x
  have hj1 : j < (a.set j (a.getD i 0)).length := by
    rw [List.length_set]
    exact hj
  have hi1 : i < (a.set j (a.getD i 0)).length := by
    rw [List.length_set]
    exact hi
  have e1 := count_set_add a j (a.getD i 0) hj x
  have e2 := count_set_add (a.set j (a.getD i 0)) i (a.getD j 0) hi1 x
  have hgd : (a.set j (a.getD i 0)).getD i 0 = a.getD i 0 := by
    by_cases hij : j = i
    · subst hij
      exact getD_set_self 0 a j _ hj
    · exact getD_set_ne 0 a j i _ hij
  rw [hgd] at e2
  unfold listSwap
  by_cases h1 : a.getD i 0 = x <;> by_cases h2 : a.getD j 0 = x <;>
    simp [h1, h2] at e1 e2 ⊢ <;> omega

theorem listSwap_length (a : List ℕ) (i j : ℕ) :
    (listSwap a i j).length = a.length := by
  unfold listSwap
  simp

theorem shuffle_from_perm (rs : ℕ → ℕ) (n : ℕ) :
    ∀ (i : ℕ) (a : List ℕ), a.length = n → i < n →
      (shuffle_from rs n i a).Perm a := by
  intro i
  induction i with
  | zero =>
    intro a _ _
    exact List.Perm.refl _
  | succ m ih =>
    intro a hlen hin
    have hjlt : rs (n - 1 - (m + 1)) % (m + 2) < m + 2 := Nat.mod_lt _ (by omega)
    have hswap : (listSwap a (rs (n - 1 - (m + 1)) % (m + 2)) (m + 1)).Perm a :=
      listSwap_perm a _ _ (by omega) (by omega)
    have hlen2 : (listSwap a (rs (n - 1 - (m + 1)) % (m + 2)) (m + 1)).length = n := by
      rw [listSwap_length]
      exact hlen
    exact (ih _ hlen2 (by omega)).trans hswap

theorem shuffle_array_perm (rs : ℕ → ℕ) (a : List ℕ) (n : ℕ) (hlen : a.length = n) :
    (shuffle_array rs a n).Perm a := by
  unfold shuffle_array
  cases n with
  | zero => exact List.Perm.refl _
  | succ m => exact shuffle_from_perm rs (m+1) m a hlen (by omega)

/-- The `sex_candidates` array of `next_generation` (GA.c lines 167-173):
the indices `0 .. BOTTLENECK-1`, Fisher-Yates-shuffled with the first
`BOTTLENECK - 1` draws of the stream. -/
def sex_candidates (rs : ℕ → ℕ) : List ℕ :=
  shuffle_array rs (List.range BOTTLENECK) BOTTLENECK

/-- The crossover cut point of mating pair `i` (GA.c line 178,
`rand() % GENOME_LENGTH` inside the pair loop): pair `i` consumes the
`(BOTTLENECK - 1 + i)`-th draw of the generation's stream (the shuffle used
draws `0 .. BOTTLENECK - 2`). -/
def next_gen_cut (rs : ℕ → ℕ) (i : ℕ) : ℕ :=
  rs (BOTTLENECK - 1 + i) % GENOME_LENGTH

/-- One iteration of the pair loop of `next_generation` (GA.c lines
175-179): parents are read at the shuffled indices `sc[2i]` and `sc[2i+1]`,
and the two offspring overwrite positions `POPULATION_SIZE - 2i - 2` and
`POPULATION_SIZE - 2i - 1`. -/
def next_gen_step (sc : List ℕ) (rs : ℕ → ℕ) (P : POPULATION) (i : ℕ) : POPULATION :=
  let off := crossover (P.getD (sc.getD (2*i) 0) []) (P.getD (sc.getD (2*i+1) 0) [])
               (next_gen_cut rs i)
  (P.set (POPULATION_SIZE - 2*i - 2) off.1).set (POPULATION_SIZE - 2*i - 1) off.2

/-- Function `next_generation` (GA.c lines 166-180): shuffle the candidate indices,
then run the pair loop for `i = 0 .. BOTTLENECK/2 - 1`. -/
def next_generation (rs : ℕ → ℕ) (P : POPULATION) : POPULATION :=
  (List.range (BOTTLENECK / 2)).foldl (next_gen_step (sex_candidates rs) rs) P

/-- The mating pairs formed by `next_generation`: pair `i` consists of the
parent indices `sex_candidates[2i]` and `sex_candidates[2i+1]`. -/
def mating_pairs (rs : ℕ → ℕ) : List (ℕ × ℕ) :=
  (List.range (BOTTLENECK / 2)).map
    (fun i => ((sex_candidates rs).getD (2*i) 0, (sex_candidates rs).getD (2*i+1) 0))

theorem flat_pairs (d : ℕ) :
    ∀ (m : ℕ) (l : List ℕ), l.length = 2 * m →
      (List.range m).flatMap (fun i => [l.getD (2*i) d, l.getD (2*i+1) d]) = l := by
  intro m
  induction m with
  | zero =>
    intro l hl
    have : l = [] := List.eq_nil_of_length_eq_zero (by omega)
    simp [this]
  | succ m ih =>
    intro l hl
    match l, hl with
    | a :: b :: t, hl =>
      have ht : t.length = 2 * m := by
        simp only [List.length_cons] at hl
        omega
      rw [List.range_succ_eq_map]
      rw [List.flatMap_cons, List.flatMap_map]
      have hcomp : (fun i : ℕ =>
            [(a :: b :: t).getD (2 * Nat.succ i) d, (a :: b :: t).getD (2 * Nat.succ i + 1) d])
          = (fun i => [t.getD (2*i) d, t.getD (2*i+1) d]) := by
        funext i
        have h3 : 2 * Nat.succ i + 1 = (2 * i + 1 + 1) + 1 := by omega
        have h2 : 2 * Nat.succ i = (2 * i + 1) + 1 := by omega
        rw [h3, h2]
        simp only [List.getD_cons_succ]
      rw [hcomp, ih t ht]
      norm_num

theorem sex_candidates_perm (rs : ℕ → ℕ) :
    (sex_candidates rs).Perm (List.range BOTTLENECK) :=
  shuffle_array_perm rs (List.range BOTTLENECK) BOTTLENECK (List.length_range BOTTLENECK)

/-- C7: in every generation and for every random stream, the parents used by
the mating pairs are exactly the indices `0 .. BOTTLENECK-1`: flattening the
`BOTTLENECK/2` pairs gives a list in which every index `< BOTTLENECK` occurs
exactly once and no index `≥ BOTTLENECK` occurs at all. -/
theorem C7_pairing_complete (rs : ℕ → ℕ) :
    (mating_pairs rs).length = BOTTLENECK / 2 ∧
    (∀ k, k < BOTTLENECK →
      ((mating_pairs rs).flatMap (fun p => [p.1, p.2])).count k = 1) ∧
    (∀ k, BOTTLENECK ≤ k →
      ((mating_pairs rs).flatMap (fun p => [p.1, p.2])).count k = 0) := by
  unfold mating_pairs
  have hperm := sex_candidates_perm rs
  generalize hg : sex_candidates rs = sc
  rw [hg] at hperm
  have hlen : sc.length = BOTTLENECK := by
    rw [hperm.length_eq, List.length_range]
  have hflat : ((List.range (BOTTLENECK/2)).map
      (fun i => (sc.getD (2*i) 0, sc.getD (2*i+1) 0))).flatMap (fun p => [p.1, p.2]) = sc := by
    rw [List.flatMap_map]
    exact flat_pairs 0 (BOTTLENECK / 2) sc (by rw [hlen]; norm_num [BOTTLENECK])
  refine ⟨by simp, ?_, ?_⟩
  · intro k hk
    rw [hflat, hperm.count_eq]
    exact List.count_eq_one_of_mem (List.nodup_range BOTTLENECK) (List.mem_range.2 hk)
  · intro k hk
    rw [hflat, hperm.count_eq]
    exact List.count_eq_zero_of_not_mem (by rw [List.mem_range]; omega)

/-- Witness for C7 at the all-zero random stream and index 0. -/
theorem C7_pairing_complete_witness :
    ((mating_pairs (fun _ => 0)).flatMap (fun p => [p.1, p.2])).count 0 = 1 :=
  (C7_pairing_complete (fun _ => 0)).2.1 0 (by norm_num [BOTTLENECK])

theorem next_gen_step_frame (sc : List ℕ) (rs : ℕ → ℕ) (P : POPULATION) (i : ℕ)
    (hi : i < BOTTLENECK / 2) (idx : ℕ) (hidx : idx < POPULATION_SIZE - BOTTLENECK) :
    (next_gen_step sc rs P i).getD idx [] = P.getD idx [] := by
  unfold next_gen_step
  have hP : POPULATION_SIZE = 40 := rfl
  have hB : BOTTLENECK = 20 := rfl
  rw [hB] at hi
  rw [hP, hB] at hidx
  have h1 : POPULATION_SIZE - 2*i - 2 ≠ idx := by
    rw [hP]
    omega
  have h2 : POPULATION_SIZE - 2*i - 1 ≠ idx := by
    rw [hP]
    omega
  rw [getD_set_ne [] _ _ _ _ h2, getD_set_ne [] _ _ _ _ h1]

theorem next_gen_step_length (sc : List ℕ) (rs : ℕ → ℕ) (P : POPULATION) (i : ℕ) :
    (next_gen_step sc rs P i).length = P.length := by
  unfold next_gen_step
  simp

theorem next_gen_fold_frame (sc : List ℕ) (rs : ℕ → ℕ) :
    ∀ (l : List ℕ) (P : POPULATION), (∀ i ∈ l, i < BOTTLENECK / 2) →
      ∀ idx, idx < POPULATION_SIZE - BOTTLENECK →
        ((l.foldl (next_gen_step sc rs) P).getD idx []) = P.getD idx [] := by
  intro l
  induction l with
  | nil =>
    intro P _ idx _
    rfl
  | cons a t ih =>
    intro P hmem idx hidx
    rw [List.foldl_cons]
    rw [ih (next_gen_step sc rs P a) (fun i hi => hmem i (List.mem_cons_of_mem a hi)) idx hidx]
    exact next_gen_step_frame sc rs P a (hmem a (List.mem_cons_self a t)) idx hidx

theorem next_gen_fold_length (sc : List ℕ) (rs : ℕ → ℕ) :
    ∀ (l : List ℕ) (P : POPULATION),
      (l.foldl (next_gen_step sc rs) P).length = P.length := by
  intro l
  induction l with
  | nil =>
    intro P
    rfl
  | cons a t ih =>
    intro P
    rw [List.foldl_cons, ih, next_gen_step_length]

/-- C5: one call to `next_generation` only writes the bottom `BOTTLENECK`
population slots; every slot with index `< POPULATION_SIZE - BOTTLENECK`
holds the bit-identical organism it held before the call, and the population
size is unchanged. -/
theorem C5_replacement_scope (rs : ℕ → ℕ) (P : POPULATION) (idx : ℕ)
    (hidx : idx < POPULATION_SIZE - BOTTLENECK) :
    (next_generation rs P).getD idx [] = P.getD idx [] ∧
    (next_generation rs P).length = P.length := by
  unfold next_generation
  constructor
  · exact next_gen_fold_frame (sex_candidates rs) rs (List.range (BOTTLENECK / 2)) P
      (fun i hi => List.mem_range.1 hi) idx hidx
  · exact next_gen_fold_length (sex_candidates rs) rs (List.range (BOTTLENECK / 2)) P

/-- Witness for C5 at the all-zero stream, the empty population and index 0. -/
theorem C5_replacement_scope_witness :
    (next_generation (fun _ => 0) []).getD 0 [] = ([] : POPULATION).getD 0 [] :=
  (C5_replacement_scope (fun _ => 0) [] 0
    (by norm_num [POPULATION_SIZE, BOTTLENECK])).1

/-- Function `rand_population` (GA.c lines 52-61): every bit of every organism is
`rand() % 2`, with the outer loop over organisms and the inner loop over
bits, so organism `i`, bit `j` consumes draw `i * gen_size + j`.  (The C
code seeds the process-wide generator with `srand(time(NULL))` first; the
stream `rs` models the seeded generator's output sequence.) -/
def rand_population (rs : ℕ → ℕ) (pop_size gen_size : ℕ) : POPULATION :=
  (List.range pop_size).map (fun i =>
    (List.range gen_size).map (fun j => ((rs (i * gen_size + j) % 2 : ℕ) : ℤ)))

/-- Number of `rand()` draws one `next_generation` call consumes:
`BOTTLENECK - 1` in the shuffle plus `BOTTLENECK / 2` cut points. -/
def DRAWS_PER_GEN : ℕ := BOTTLENECK - 1 + BOTTLENECK / 2

/-- The `while` loop of `main` (GA.c lines 197-203): while the organism at
index 0 has fitness other than 1 and the counter has not passed
`MAX_GENERATIONS`, advance one generation, re-sort, and increment the
counter.  Returns the final population and the final counter value. -/
def run_from (rs : ℕ → ℕ) (P : POPULATION) (g : ℕ) : POPULATION × ℕ :=
  if h : fitness (P.getD 0 []) ≠ 1 ∧ g ≤ MAX_GENERATIONS then
    run_from (fun n => rs (n + DRAWS_PER_GEN))
      (sort_P_by_fitness (next_generation rs P)) (g + 1)
  else (P, g)
termination_by MAX_GENERATIONS + 1 - g
decreasing_by
  have := h.2
  omega

/-- The number of loop iterations (`next_generation` calls) `run_from`
performs, following the same recursion. -/
def run_steps (rs : ℕ → ℕ) (P : POPULATION) (g : ℕ) : ℕ :=
  if h : fitness (P.getD 0 []) ≠ 1 ∧ g ≤ MAX_GENERATIONS then
    run_steps (fun n => rs (n + DRAWS_PER_GEN))
      (sort_P_by_fitness (next_generation rs P)) (g + 1) + 1
  else 0
termination_by MAX_GENERATIONS + 1 - g
decreasing_by
  have := h.2
  omega

/-- The configuration check of `main` (GA.c lines 183-186):
`POPULATION_SIZE % 2 || BOTTLENECK % 2`, generalized over the two
compile-time size constants as the spec's run parameters.  The check tests
parity only. -/
def main_config_check (pop_size bottleneck : ℕ) : Bool :=
  pop_size % 2 != 0 || bottleneck % 2 != 0

/-- The body of `main` after the configuration check (GA.c lines 188-206):
build a random population, sort it, and run the loop with the counter
starting at 1. -/
def main_body (rs : ℕ → ℕ) : POPULATION × ℕ :=
  run_from (fun n => rs (n + POPULATION_SIZE * GENOME_LENGTH))
    (sort_P_by_fitness (rand_population rs POPULATION_SIZE GENOME_LENGTH)) 1

/-- The simulation entry point in the spec's parameterized form: `main`'s
configuration check on the two size parameters, then the simulation body.
The error branch returns before any draw of the random stream is
consumed (the body, which is the only consumer of `rs`, is never entered). -/
def run_simulation (pop_size bottleneck : ℕ) (rs : ℕ → ℕ) :
    Except Unit (POPULATION × ℕ) :=
  if main_config_check pop_size bottleneck then Except.error ()
  else Except.ok (main_body rs)

theorem run_from_stop (rs : ℕ → ℕ) (P : POPULATION) (g : ℕ)
    (h : ¬(fitness (P.getD 0 []) ≠ 1 ∧ g ≤ MAX_GENERATIONS)) :
    run_from rs P g = (P, g) := by
  unfold run_from
  rw [dif_neg h]

theorem run_from_continue (rs : ℕ → ℕ) (P : POPULATION) (g : ℕ)
    (h : fitness (P.getD 0 []) ≠ 1 ∧ g ≤ MAX_GENERATIONS) :
    run_from rs P g = run_from (fun n => rs (n + DRAWS_PER_GEN))
      (sort_P_by_fitness (next_generation rs P)) (g + 1) := by
  conv_lhs => unfold run_from
  rw [dif_pos h]

theorem run_steps_stop (rs : ℕ → ℕ) (P : POPULATION) (g : ℕ)
    (h : ¬(fitness (P.getD 0 []) ≠ 1 ∧ g ≤ MAX_GENERATIONS)) :
    run_steps rs P g = 0 := by
  unfold run_steps
  rw [dif_neg h]

theorem run_steps_continue (rs : ℕ → ℕ) (P : POPULATION) (g : ℕ)
    (h : fitness (P.getD 0 []) ≠ 1 ∧ g ≤ MAX_GENERATIONS) :
    run_steps rs P g = run_steps (fun n => rs (n + DRAWS_PER_GEN))
      (sort_P_by_fitness (next_generation rs P)) (g + 1) + 1 := by
  conv_lhs => unfold run_steps
  rw [dif_pos h]

theorem run_steps_le (k : ℕ) :
    ∀ (g : ℕ) (rs : ℕ → ℕ) (P : POPULATION), MAX_GENERATIONS + 1 - g ≤ k →
      run_steps rs P g ≤ MAX_GENERATIONS + 1 - g := by
  induction k with
  | zero =>
    intro g rs P hk
    have hng : ¬(fitness (P.getD 0 []) ≠ 1 ∧ g ≤ MAX_GENERATIONS) := by
      intro hcon
      omega
    rw [run_steps_stop _ _ _ hng]
    omega
  | succ m ih =>
    intro g rs P hk
    by_cases h : fitness (P.getD 0 []) ≠ 1 ∧ g ≤ MAX_GENERATIONS
    · rw [run_steps_continue _ _ _ h]
      have hgle := h.2
      have := ih (g + 1) (fun n => rs (n + DRAWS_PER_GEN))
        (sort_P_by_fitness (next_generation rs P)) (by omega)
      omega
    · rw [run_steps_stop _ _ _ h]
      omega

theorem run_from_snd (k : ℕ) :
    ∀ (g : ℕ) (rs : ℕ → ℕ) (P : POPULATION), MAX_GENERATIONS + 1 - g ≤ k →
      (run_from rs P g).2 = g + run_steps rs P g := by
  induction k with
  | zero =>
    intro g rs P hk
    have hng : ¬(fitness (P.getD 0 []) ≠ 1 ∧ g ≤ MAX_GENERATIONS) := by
      intro hcon
      omega
    rw [run_from_stop _ _ _ hng, run_steps_stop _ _ _ hng]
    simp
  | succ m ih =>
    intro g rs P hk
    by_cases h : fitness (P.getD 0 []) ≠ 1 ∧ g ≤ MAX_GENERATIONS
    · rw [run_from_continue _ _ _ h, run_steps_continue _ _ _ h]
      have hgle := h.2
      rw [ih (g + 1) (fun n => rs (n + DRAWS_PER_GEN))
        (sort_P_by_fitness (next_generation rs P)) (by omega)]
      omega
    · rw [run_from_stop _ _ _ h, run_steps_stop _ _ _ h]
      simp

theorem fitness_ones : fitness (List.replicate GENOME_LENGTH (1:ℤ)) = 1 := by
  unfold fitness
  rw [List.take_of_length_le (by simp)]
  rw [List.sum_replicate]
  norm_num [GENOME_LENGTH]

/-- C3: the run loop halts after at most `MAX_GENERATIONS` generational
steps — so the loop condition is evaluated at most `MAX_GENERATIONS + 1`
times and the final counter (which equals 1 + number of evaluations that
took the loop body, i.e. the number of condition checks) is at most
`MAX_GENERATIONS + 1` — and as soon as the organism at index 0 has fitness
1 the loop stops at once, performing no further generational step. -/
theorem C3_termination (rs : ℕ → ℕ) (P : POPULATION) :
    run_steps rs P 1 ≤ MAX_GENERATIONS ∧
    (run_from rs P 1).2 ≤ MAX_GENERATIONS + 1 ∧
    (∀ g, fitness (P.getD 0 []) = 1 →
      run_from rs P g = (P, g) ∧ run_steps rs P g = 0) := by
  have h1 : run_steps rs P 1 ≤ MAX_GENERATIONS + 1 - 1 :=
    run_steps_le (MAX_GENERATIONS + 1) 1 rs P (by omega)
  have h2 : (run_from rs P 1).2 = 1 + run_steps rs P 1 :=
    run_from_snd (MAX_GENERATIONS + 1) 1 rs P (by omega)
  refine ⟨by omega, by omega, ?_⟩
  intro g hf
  have hng : ¬(fitness (P.getD 0 []) ≠ 1 ∧ g ≤ MAX_GENERATIONS) := by
    intro hcon
    exact hcon.1 hf
  exact ⟨run_from_stop _ _ _ hng, run_steps_stop _ _ _ hng⟩

/-- Witness for C3: a singleton population holding the all-ones organism
halts immediately at its starting counter value 2. -/
theorem C3_termination_witness :
    run_from (fun _ => 0) [List.replicate 16 (1:ℤ)] 2
      = ([List.replicate 16 (1:ℤ)], 2) :=
  ((C3_termination (fun _ => 0) [List.replicate 16 (1:ℤ)]).2.2 2
    (by
      simp only [List.getD_cons_zero]
      exact fitness_ones)).1

theorem main_config_check_iff (pop_size bottleneck : ℕ) :
    main_config_check pop_size bottleneck = true ↔
      (pop_size % 2 = 1 ∨ bottleneck % 2 = 1) := by
  unfold main_config_check
  rw [Bool.or_eq_true, bne_iff_ne, bne_iff_ne]
  omega

/-- C4 counterexample: with `population_size = 40` and `bottleneck_size = 60`
(both even, bottleneck strictly larger than the population) the entry point
raises no configuration error, contradicting the claim that
`bottleneck_size > population_size` is rejected. -/
theorem C4_counterexample :
    60 > 40 ∧ main_config_check 40 60 = false ∧
    (run_simulation 40 60 (fun _ => 0)).isOk = true := by
  refine ⟨by norm_num, by decide, rfl⟩

/-- C4 (amended): the entry point fails with a configuration error iff
`population_size` or `bottleneck_size` is odd — the code never compares
`bottleneck_size` against `population_size` — and on the error path the
result is independent of the random stream (no random state is consumed). -/
theorem C4_config_error (pop_size bottleneck : ℕ) (rs rs2 : ℕ → ℕ) :
    ((run_simulation pop_size bottleneck rs).isOk = false ↔
      (pop_size % 2 = 1 ∨ bottleneck % 2 = 1)) ∧
    (main_config_check pop_size bottleneck = true →
      run_simulation pop_size bottleneck rs = run_simulation pop_size bottleneck rs2) := by
  have hiff := main_config_check_iff pop_size bottleneck
  unfold run_simulation
  by_cases hc : main_config_check pop_size bottleneck = true
  · rw [if_pos hc, if_pos hc]
    constructor
    · constructor
      · intro _
        exact hiff.1 hc
      · intro _
        rfl
    · intro _
      rfl
  · rw [if_neg hc, if_neg hc]
    constructor
    · constructor
      · intro hfalse
        exact Bool.noConfusion hfalse
      · intro hodd
        exact absurd (hiff.2 hodd) hc
    · intro hc'
      exact absurd hc' hc

/-- Witness for C4: `population_size = 41` (odd) is rejected, and on that
error path the result does not depend on the random stream. -/
theorem C4_config_error_witness :
    (run_simulation 41 20 (fun _ => 0)).isOk = false ∧
    run_simulation 41 20 (fun _ => 0) = run_simulation 41 20 (fun _ => 1) :=
  ⟨(C4_config_error 41 20 (fun _ => 0) (fun _ => 1)).1.2 (by norm_num),
   (C4_config_error 41 20 (fun _ => 0) (fun _ => 1)).2 (by decide)⟩

theorem sorted_head_fitness_one {P : POPULATION} (hb : BinaryPop P)
    (hm : List.replicate GENOME_LENGTH (1:ℤ) ∈ P) :
    fitness ((sort_P_by_fitness P).getD 0 []) = 1 := by
  have hperm := sort_P_perm P
  have hmem : List.replicate GENOME_LENGTH (1:ℤ) ∈ sort_P_by_fitness P :=
    hperm.mem_iff.2 hm
  have hpw := sort_P_pairwise P
  have hones : fitness (List.replicate GENOME_LENGTH (1:ℤ)) = 1 := fitness_ones
  cases hS : sort_P_by_fitness P with
  | nil =>
    rw [hS] at hmem
    simp at hmem
  | cons a t =>
    rw [hS] at hmem hpw
    have hab : BinaryOrg a := by
      apply hb
      rw [← hperm.mem_iff, hS]
      exact List.mem_cons_self a t
    have hle : fitness a ≤ 1 := fitness_le_one hab
    have hge : 1 ≤ fitness a := by
      rcases List.mem_cons.1 hmem with heq | hmt
      · rw [← heq, hones]
      · have := (List.pairwise_cons.1 hpw).1 _ hmt
        rw [comp_le_zero_iff] at this
        rw [hones] at this
        exact this
    simp only [List.getD_cons_zero]
    linarith

/-- C10: the generation counter starts at 1 and is incremented once per
generational step, so the value reported at termination equals
(number of `next_generation` calls) + 1 and lies in `[1, MAX_GENERATIONS+1]`;
when the initial (sorted) population already contains the all-ones organism,
the reported count is 1, not 0. -/
theorem C10_generation_count (rs : ℕ → ℕ) (P : POPULATION) :
    (run_from rs P 1).2 = run_steps rs P 1 + 1 ∧
    1 ≤ (run_from rs P 1).2 ∧
    (run_from rs P 1).2 ≤ MAX_GENERATIONS + 1 ∧
    (BinaryPop P → List.replicate GENOME_LENGTH (1:ℤ) ∈ P →
      (run_from rs (sort_P_by_fitness P) 1).2 = 1) := by
  have h1 : run_steps rs P 1 ≤ MAX_GENERATIONS + 1 - 1 :=
    run_steps_le (MAX_GENERATIONS + 1) 1 rs P (by omega)
  have h2 : (run_from rs P 1).2 = 1 + run_steps rs P 1 :=
    run_from_snd (MAX_GENERATIONS + 1) 1 rs P (by omega)
  refine ⟨by omega, by omega, by omega, ?_⟩
  intro hb hm
  have hf := sorted_head_fitness_one hb hm
  have hng : ¬(fitness ((sort_P_by_fitness P).getD 0 []) ≠ 1 ∧ 1 ≤ MAX_GENERATIONS) := by
    intro hcon
    exact hcon.1 hf
  rw [run_from_stop _ _ _ hng]

/-- Witness for C10: a singleton population holding the all-ones organism
reports generation count 1. -/
theorem C10_generation_count_witness :
    (run_from (fun _ => 0) (sort_P_by_fitness [List.replicate 16 (1:ℤ)]) 1).2 = 1 :=
  (C10_generation_count (fun _ => 0) [List.replicate 16 (1:ℤ)]).2.2.2
    (by
      intro o ho x hx
      right
      rw [List.mem_singleton] at ho
      subst ho
      exact List.eq_of_mem_replicate hx)
    (by simp [GENOME_LENGTH])

theorem binaryOrg_getD {p : ORGANISM} (hb : BinaryOrg p) (j : ℕ) :
    p.getD j 0 = 0 ∨ p.getD j 0 = 1 := by
  rw [List.getD_eq_getElem?_getD]
  cases hj : p[j]? with
  | none =>
    left
    rfl
  | some v =>
    exact hb v (List.getElem?_mem hj)

theorem binaryPop_getD {P : POPULATION} (hb : BinaryPop P) (k : ℕ) :
    BinaryOrg (P.getD k []) := by
  rw [List.getD_eq_getElem?_getD]
  cases hk : P[k]? with
  | none =>
    intro x hx
    simp at hx
  | some o =>
    exact hb o (List.getElem?_mem hk)

theorem crossover_gen_binary (n : ℕ) {p1 p2 : ORGANISM}
    (h1 : BinaryOrg p1) (h2 : BinaryOrg p2) (c : ℕ) :
    BinaryOrg (crossover_gen n p1 p2 c).1 ∧ BinaryOrg (crossover_gen n p1 p2 c).2 := by
  constructor <;>
    · intro x hx
      simp only [crossover_gen, List.mem_map, List.mem_range] at hx
      obtain ⟨j, _, rfl⟩ := hx
      by_cases hj : j < c
      · simp only [if_pos hj]
        first
        | exact binaryOrg_getD h1 j
        | exact binaryOrg_getD h2 j
      · simp only [if_neg hj]
        first
        | exact binaryOrg_getD h1 j
        | exact binaryOrg_getD h2 j

theorem next_gen_step_binary (sc : List ℕ) (rs : ℕ → ℕ) {P : POPULATION}
    (hb : BinaryPop P) (i : ℕ) : BinaryPop (next_gen_step sc rs P i) := by
  unfold next_gen_step
  intro o ho
  have hp1 : BinaryOrg (P.getD (sc.getD (2*i) 0) []) := binaryPop_getD hb _
  have hp2 : BinaryOrg (P.getD (sc.getD (2*i+1) 0) []) := binaryPop_getD hb _
  have hcb := crossover_gen_binary GENOME_LENGTH hp1 hp2 (next_gen_cut rs i)
  rcases List.mem_or_eq_of_mem_set ho with ho1 | rfl
  · rcases List.mem_or_eq_of_mem_set ho1 with ho2 | rfl
    · exact hb o ho2
    · exact hcb.1
  · exact hcb.2

theorem next_generation_binary (rs : ℕ → ℕ) {P : POPULATION} (hb : BinaryPop P) :
    BinaryPop (next_generation rs P) := by
  unfold next_generation
  have hfold : ∀ (l : List ℕ) (Q : POPULATION), BinaryPop Q →
      BinaryPop (l.foldl (next_gen_step (sex_candidates rs) rs) Q) := by
    intro l
    induction l with
    | nil =>
      intro Q hQ
      exact hQ
    | cons a t ih =>
      intro Q hQ
      rw [List.foldl_cons]
      exact ih _ (next_gen_step_binary _ rs hQ a)
  exact hfold _ P hb

theorem sort_binary {P : POPULATION} (hb : BinaryPop P) :
    BinaryPop (sort_P_by_fitness P) := by
  intro o ho
  exact hb o ((sort_P_perm P).mem_iff.1 ho)

theorem run_from_binary (k : ℕ) :
    ∀ (g : ℕ) (rs : ℕ → ℕ) (P : POPULATION), MAX_GENERATIONS + 1 - g ≤ k →
      BinaryPop P → BinaryPop (run_from rs P g).1 := by
  induction k with
  | zero =>
    intro g rs P hk hb
    have hng : ¬(fitness (P.getD 0 []) ≠ 1 ∧ g ≤ MAX_GENERATIONS) := by
      intro hcon
      omega
    rw [run_from_stop _ _ _ hng]
    exact hb
  | succ m ih =>
    intro g rs P hk hb
    by_cases h : fitness (P.getD 0 []) ≠ 1 ∧ g ≤ MAX_GENERATIONS
    · rw [run_from_continue _ _ _ h]
      have hgle := h.2
      exact ih (g+1) _ _ (by omega) (sort_binary (next_generation_binary rs hb))
    · rw [run_from_stop _ _ _ h]
      exact hb

theorem rand_population_binary (rs : ℕ → ℕ) (pop_size gen_size : ℕ) :
    BinaryPop (rand_population rs pop_size gen_size) := by
  intro o ho
  simp only [rand_population, List.mem_map, List.mem_range] at ho
  obtain ⟨i, _, rfl⟩ := ho
  intro x hx
  simp only [List.mem_map, List.mem_range] at hx
  obtain ⟨j, _, rfl⟩ := hx
  have := Nat.mod_two_eq_zero_or_one (rs (i * gen_size + j))
  rcases this with h | h <;> [left; right] <;> rw [h] <;> rfl

/-- C9 (implicit invariant): the initial random population is binary (all
entries 0 or 1), sorting and `next_generation` (whose writes are crossover
copies of parent bits) preserve binarity, the whole run loop preserves it,
and hence every member's fitness stays in `[0,1]` throughout the
simulation. -/
theorem C9_binary_invariant (rs : ℕ → ℕ) (P : POPULATION) (g pop_size gen_size : ℕ) :
    BinaryPop (rand_population rs pop_size gen_size) ∧
    (BinaryPop P → BinaryPop (sort_P_by_fitness P)) ∧
    (BinaryPop P → BinaryPop (next_generation rs P)) ∧
    (BinaryPop P → BinaryPop (run_from rs P g).1) ∧
    (BinaryPop P → ∀ o ∈ P, 0 ≤ fitness o ∧ fitness o ≤ 1) := by
  refine ⟨rand_population_binary rs pop_size gen_size, sort_binary,
    next_generation_binary rs, ?_, ?_⟩
  · intro hb
    exact run_from_binary (MAX_GENERATIONS + 1) g rs P (by omega) hb
  · intro hb o ho
    exact ⟨fitness_nonneg (hb o ho), fitness_le_one (hb o ho)⟩

/-- Witness for C9 at the concrete binary population `[[1,0]]`. -/
theorem C9_binary_invariant_witness :
    ∀ o ∈ [[(1:ℤ), 0]], 0 ≤ fitness o ∧ fitness o ≤ 1 :=
  (C9_binary_invariant (fun _ => 0) [[(1:ℤ), 0]] 0 1 1).2.2.2.2
    (by unfold BinaryPop BinaryOrg; decide)

theorem count_mod_eq (m k c : ℕ) (hc : c < m) :
    ((Finset.range (m * k)).filter (fun r => r % m = c)).card = k := by
  have hm : 0 < m := by omega
  have himg : Finset.image (fun t => m * t + c) (Finset.range k)
      = (Finset.range (m * k)).filter (fun r => r % m = c) := by
    ext r
    simp only [Finset.mem_image, Finset.mem_filter, Finset.mem_range]
    constructor
    · rintro ⟨t, ht, rfl⟩
      refine ⟨?_, ?_⟩
      · calc m * t + c < m * t + m := by omega
          _ = m * (t + 1) := by ring
          _ ≤ m * k := Nat.mul_le_mul_left m (by omega)
      · rw [Nat.mul_add_mod]
        exact Nat.mod_eq_of_lt hc
    · rintro ⟨hr, hmod⟩
      refine ⟨r / m, ?_, ?_⟩
      · by_contra hge
        push_neg at hge
        have h1 : m * k ≤ m * (r / m) := Nat.mul_le_mul_left m hge
        have h2 : m * (r / m) + r % m = r := Nat.div_add_mod r m
        omega
      · have h2 : m * (r / m) + r % m = r := Nat.div_add_mod r m
        omega
  have hinj : Function.Injective (fun t => m * t + c) := by
    intro a b hab
    have h1 : m * a + c = m * b + c := hab
    have h2 : m * a = m * b := Nat.add_right_cancel h1
    exact Nat.eq_of_mul_eq_mul_left hm h2
  rw [← himg, Finset.card_image_of_injective _ hinj]
  exact Finset.card_range k

/-- C8: each mating pair draws its own fresh cut point: pair `i` uses draw
index `BOTTLENECK - 1 + i` of the generation's stream (the shuffle consumed
draws `0 .. BOTTLENECK - 2` first), distinct pairs use distinct draw
indices, every cut point lies in `[0, GENOME_LENGTH)`, and reduction modulo
`GENOME_LENGTH` maps uniform raw draws to the uniform distribution on
`[0, GENOME_LENGTH)`: over any block of `GENOME_LENGTH * k` consecutive raw
values, every residue is hit exactly `k` times. -/
theorem C8_cut_points (rs : ℕ → ℕ) (i j : ℕ) :
    next_gen_cut rs i = rs (BOTTLENECK - 1 + i) % GENOME_LENGTH ∧
    next_gen_cut rs i < GENOME_LENGTH ∧
    (i ≠ j → BOTTLENECK - 1 + i ≠ BOTTLENECK - 1 + j) ∧
    (∀ k c, c < GENOME_LENGTH →
      ((Finset.range (GENOME_LENGTH * k)).filter
        (fun r => r % GENOME_LENGTH = c)).card = k) := by
  refine ⟨rfl, Nat.mod_lt _ (by norm_num [GENOME_LENGTH]), by omega, ?_⟩
  intro k c hc
  exact count_mod_eq GENOME_LENGTH k c hc

/-- Witness for C8 at pairs 0 and 1 of a constant stream. -/
theorem C8_cut_points_witness :
    next_gen_cut (fun _ => 5) 0 < GENOME_LENGTH ∧
    BOTTLENECK - 1 + 0 ≠ BOTTLENECK - 1 + 1 :=
  ⟨(C8_cut_points (fun _ => 5) 0 1).2.1,
   (C8_cut_points (fun _ => 5) 0 1).2.2.1 (by norm_num)⟩

end GA
